import Mathlib

/-!
Shallow embedding of the routing core in `path.py` (PI-FindIt/map).

The script loads POI and boundary GeoJSON features, parses them into point
and polygon geometries, builds a visibility graph over POIs and polygon ring
vertices, computes an all-pairs shortest-path distance matrix between POIs,
solves the visiting-order problem by brute-force permutation enumeration,
and assembles the final path with consecutive duplicates removed.

Coordinates are embedded as rational pairs; distances (`math.hypot`) live in
`ℝ`.  The `float("inf")` sentinel for unreachable pairs is embedded as `none`
in `Option`-valued distances.  The TSP loop is embedded generically over an
ordered additive monoid of costs, mirroring the fact that the Python loop
only adds and compares matrix entries.
-/

/-- A planar coordinate pair (shapely point coordinates / graph node keys). -/
abbrev Pt : Type := ℚ × ℚ

/-- A polygon: exterior ring plus interior hole rings, as coordinate lists
(mirroring `boundary.exterior.coords` and `boundary.interiors`). -/
structure Polygon where
  exterior : List Pt
  interiors : List (List Pt)
deriving DecidableEq

/-- The geometry of a parsed GeoJSON feature, as discriminated by the
`isinstance(geom, Point)` / `isinstance(geom, Polygon)` tests in `path.py`. -/
inductive GeomShape where
  | point (p : Pt)
  | polygon (pg : Polygon)
  | other
deriving DecidableEq

/-- A GeoJSON feature as consumed by the parsing loops: only its geometry
matters to `path.py`. -/
structure Feature where
  geometry : GeomShape
deriving DecidableEq

/-- The POI parsing loop (`path.py` lines 21-25): iterate over `pois_data`
binding `feature`, keep the coordinates of `Point` geometries. -/
def parsePois (pois_data : List Feature) : List Pt :=
  pois_data.foldl
    (fun pois f =>
      match f.geometry with
      | .point p => pois ++ [p]
      | _ => pois)
    []

/-- The body of the boundary parsing loop (`path.py` lines 30-33).  The loop
header binds `feaature`, but the body reads `feature` — the variable left
over from the POI loop, i.e. the *last* element of `pois_data`.  If
`pois_data` is empty the name `feature` is unbound and the iteration raises
`NameError` (embedded as `none`). -/
def boundaryStep (pois_data : List Feature) (acc : Option (List Polygon))
    (_feaature : Feature) : Option (List Polygon) := do
  let bs ← acc
  let f ← pois_data.getLast?
  match f.geometry with
  | .polygon pg => pure (bs ++ [pg])
  | _ => pure bs

/-- The boundary parsing loop (`path.py` lines 28-33): fold the buggy body
over the boundary features; the body never runs when `boundaries_data` is
empty. -/
def parseBoundaries (pois_data boundaries_data : List Feature) : Option (List Polygon) :=
  boundaries_data.foldl (boundaryStep pois_data) (some [])

/-- `math.hypot dx dy` — Euclidean norm of `(dx, dy)`. -/
noncomputable def hypot (dx dy : ℝ) : ℝ := Real.sqrt (dx * dx + dy * dy)

/-- Edge weight used throughout `path.py`:
`math.hypot(p2[0] - p1[0], p2[1] - p1[1])`. -/
noncomputable def edgeWeight (p1 p2 : Pt) : ℝ :=
  hypot ((p2.1 : ℝ) - (p1.1 : ℝ)) ((p2.2 : ℝ) - (p1.2 : ℝ))

/-- A rational point viewed as a complex number (used only to import metric
facts about the Euclidean plane). -/
noncomputable def toC (p : Pt) : ℂ := Complex.mk (p.1 : ℝ) (p.2 : ℝ)

/-- Node collection (`path.py` lines 36-47): POI coordinates, then every
exterior and interior ring vertex of every boundary, deduplicated exactly
(`nodes = list(set(nodes))`). -/
def collectNodes (pois : List Pt) (boundaries : List Polygon) : List Pt :=
  (pois ++ boundaries.flatMap (fun b => b.exterior ++ b.interiors.flatten)).dedup

/-- A rational point viewed as a real pair (geometry carrier space). -/
def toR (p : Pt) : ℝ × ℝ := ((p.1 : ℝ), (p.2 : ℝ))

/-- The consecutive vertex pairs of a ring's coordinate list (GeoJSON rings
are stored closed, i.e. first vertex repeated at the end). -/
def ringEdges (ring : List Pt) : List (Pt × Pt) := ring.zip ring.tail

/-- The point set of a ring's boundary: the union of its edge segments. -/
def ringBoundarySet (ring : List Pt) : Set (ℝ × ℝ) :=
  {x | ∃ e ∈ ringEdges ring, x ∈ segment ℝ (toR e.1) (toR e.2)}

/-- One edge `(a, b)` of a ring crosses the horizontal ray going right from
`x` (standard half-open crossing rule of even-odd point-in-polygon tests). -/
def rayCrosses (a b : Pt) (x : ℝ × ℝ) : Prop :=
  (((a.2 : ℝ) ≤ x.2 ∧ x.2 < (b.2 : ℝ)) ∨ ((b.2 : ℝ) ≤ x.2 ∧ x.2 < (a.2 : ℝ))) ∧
    x.1 < (a.1 : ℝ) + (x.2 - (a.2 : ℝ)) * ((b.1 : ℝ) - (a.1 : ℝ)) / ((b.2 : ℝ) - (a.2 : ℝ))

/-- Parity of ray crossings over a list of edges. -/
def crossParity (x : ℝ × ℝ) : List (Pt × Pt) → Prop
  | [] => False
  | e :: es => Xor' (rayCrosses e.1 e.2 x) (crossParity x es)

/-- Even-odd interior test: `x` lies strictly inside the region bounded by
`ring` iff the rightward ray from `x` crosses an odd number of edges. -/
def insideRing (ring : List Pt) (x : ℝ × ℝ) : Prop := crossParity x (ringEdges ring)

/-- The solid (closed) region of a polygon: the exterior ring's region and
boundary, minus the open interiors of the hole rings. -/
def solidSet (b : Polygon) : Set (ℝ × ℝ) :=
  {x | (insideRing b.exterior x ∨ x ∈ ringBoundarySet b.exterior) ∧
    ∀ h ∈ b.interiors, ¬ insideRing h x}

/-- The topological interior of a polygon: strictly inside the exterior ring,
off its boundary, and outside the closures of all hole rings. -/
def polyInteriorSet (b : Polygon) : Set (ℝ × ℝ) :=
  {x | insideRing b.exterior x ∧ x ∉ ringBoundarySet b.exterior ∧
    ∀ h ∈ b.interiors, ¬ (insideRing h x ∨ x ∈ ringBoundarySet h)}

/-- shapely `LineString([p1, p2]).intersects(boundary)`: the closed segment
meets the polygon's solid region. -/
def lineIntersectsPoly (p1 p2 : Pt) (b : Polygon) : Prop :=
  (segment ℝ (toR p1) (toR p2) ∩ solidSet b).Nonempty

/-- shapely `LineString([p1, p2]).touches(boundary)`: the geometries meet,
but the line's interior (the segment minus its endpoints) misses the
polygon's interior. -/
def lineTouchesPoly (p1 p2 : Pt) (b : Polygon) : Prop :=
  (segment ℝ (toR p1) (toR p2) ∩ solidSet b).Nonempty ∧
    openSegment ℝ (toR p1) (toR p2) ∩ polyInteriorSet b = ∅

/-- The spec's `segmentEntersSolid`: the obstruction test of `path.py` line
61, `line.intersects(boundary) and not line.touches(boundary)`. -/
def segmentEntersSolid (p1 p2 : Pt) (b : Polygon) : Prop :=
  lineIntersectsPoly p1 p2 b ∧ ¬ lineTouchesPoly p1 p2 b

/-- `is_valid_edge` (`path.py` lines 58-63): the segment is an admissible
visibility edge iff no boundary obstructs it. -/
def is_valid_edge (p1 p2 : Pt) (boundaries : List Polygon) : Prop :=
  ∀ b ∈ boundaries, ¬ segmentEntersSolid p1 p2 b

/-- Adjacency in the visibility graph (`path.py` lines 66-74): two distinct
graph nodes joined iff the segment between them is a valid edge. -/
def adjacent (nodes : List Pt) (boundaries : List Polygon) (u v : Pt) : Prop :=
  u ∈ nodes ∧ v ∈ nodes ∧ u ≠ v ∧ is_valid_edge u v boundaries

/-- `l` is a (simple) path from `u` to `v` in the visibility graph. -/
def isPathIn (nodes : List Pt) (boundaries : List Polygon) (u v : Pt) (l : List Pt) : Prop :=
  l.head? = some u ∧ l.getLast? = some v ∧ l.Chain' (adjacent nodes boundaries) ∧
    l.Nodup ∧ ∀ x ∈ l, x ∈ nodes

/-- All sequences of pairwise-distinct elements drawn from `l`, by fuelled
recursion (fuel bounds the sequence length). -/
def sels : ℕ → List Pt → List (List Pt)
  | 0, _ => [[]]
  | _ + 1, [] => [[]]
  | fuel + 1, l => [] :: l.flatMap (fun x => (sels fuel (l.erase x)).map (x :: ·))

/-- All candidate simple-path vertex sequences over a node list. -/
def orderedSelections (l : List Pt) : List (List Pt) := sels l.length l

/-- Total weight of a vertex sequence: the sum of consecutive edge weights
(`weight="weight"` accumulation of `networkx`). -/
noncomputable def walkCost : List Pt → ℝ
  | [] => 0
  | [_] => 0
  | p :: q :: t => edgeWeight p q + walkCost (q :: t)

open Classical in
/-- `nx.shortest_path_length(G, u, v, weight="weight")`: the least total
weight over simple paths from `u` to `v`, `none` when no path exists
(`NetworkXNoPath`). -/
noncomputable def shortest_path_length (nodes : List Pt) (boundaries : List Polygon)
    (u v : Pt) : Option ℝ :=
  (((orderedSelections nodes).filter
    (fun l => decide (isPathIn nodes boundaries u v l))).map walkCost).min?

open Classical in
/-- `nx.shortest_path(G, u, v, weight="weight")`: a concrete minimum-weight
simple path (empty list when none exists). -/
noncomputable def shortest_path (nodes : List Pt) (boundaries : List Polygon)
    (u v : Pt) : List Pt :=
  (((orderedSelections nodes).filter
    (fun l => decide (isPathIn nodes boundaries u v l))).argmin walkCost).getD []

/-- The distance matrix (`path.py` lines 80-94): `0` on the diagonal,
otherwise the shortest-path length between the `i`-th and `j`-th POI over
the visibility graph, with `none` embedding the `float("inf")` sentinel. -/
noncomputable def distance_matrix (pois : List Pt) (boundaries : List Polygon)
    (i j : ℕ) : Option ℝ :=
  if i = j then some 0
  else shortest_path_length (collectNodes pois boundaries) boundaries
    (pois.getD i ((0 : ℚ), (0 : ℚ))) (pois.getD j ((0 : ℚ), (0 : ℚ)))

/-- Cost accumulation over the consecutive legs of a tour (`path.py` lines
102-108): start from `0`, add each leg, abort (`none`) at an infinite leg. -/
def tourCost {α : Type} [AddCommMonoid α] (d : ℕ → ℕ → Option α) (t : List ℕ) : Option α :=
  (t.zip t.tail).foldl
    (fun acc ab =>
      match acc, d ab.1 ab.2 with
      | some s, some x => some (s + x)
      | _, _ => none)
    (some 0)

/-- One iteration of the TSP loop body (`path.py` lines 100-111): evaluate
the permutation's tour, keep it iff it is feasible and strictly beats the
incumbent (`total < min_distance`, with the initial incumbent `inf`). -/
def tspStep {α : Type} [AddCommMonoid α] [LinearOrder α] (d : ℕ → ℕ → Option α)
    (best : Option (List ℕ × α)) (perm : List ℕ) : Option (List ℕ × α) :=
  match tourCost d (0 :: perm) with
  | none => best
  | some total =>
    match best with
    | none => some (0 :: perm, total)
    | some (bo, m) => if total < m then some (0 :: perm, total) else some (bo, m)

/-- All permutations of a list in the enumeration order of
`itertools.permutations`: first element chosen left to right, recursively. -/
def permsLexAux : ℕ → List ℕ → List (List ℕ)
  | 0, _ => [[]]
  | _ + 1, [] => [[]]
  | fuel + 1, l => l.flatMap (fun x => (permsLexAux fuel (l.erase x)).map (x :: ·))

/-- `itertools.permutations` over a list, in enumeration order. -/
def permsLex (l : List ℕ) : List (List ℕ) := permsLexAux l.length l

/-- The brute-force TSP search (`path.py` lines 96-111): fold the loop body
over `permutations(range(1, n))`, starting from no incumbent
(`best_order = None`, `min_distance = inf`).  Returns the final
`(best_order, min_distance)`, or `none` when no feasible tour was found. -/
def solveTSP {α : Type} [AddCommMonoid α] [LinearOrder α] (d : ℕ → ℕ → Option α)
    (n : ℕ) : Option (List ℕ × α) :=
  (permsLex (List.range' 1 (n - 1))).foldl (tspStep d) none

/-- The consecutive-duplicate removal loop (`path.py` lines 124-127). -/
def removeConsecutiveDuplicates (l : List Pt) : List Pt :=
  l.foldl
    (fun cleaned p =>
      if cleaned = [] ∨ cleaned.getLast? ≠ some p then cleaned ++ [p] else cleaned)
    []

/-- The whole pipeline after parsing (`path.py` lines 36-128): build the
graph, compute the distance matrix, run the TSP search; on success
concatenate the per-leg shortest paths of the best order and clean
consecutive duplicates, giving `(best_order, cleaned_path)`; on failure
(`not best_order`) produce no route. -/
noncomputable def runPipeline (pois : List Pt) (boundaries : List Polygon) :
    Option (List ℕ × List Pt) :=
  match solveTSP (distance_matrix pois boundaries) pois.length with
  | none => none
  | some (order, _) =>
    let nodes := collectNodes pois boundaries
    let full_path :=
      ((order.zip order.tail).map
        (fun ab => shortest_path nodes boundaries
          (pois.getD ab.1 ((0 : ℚ), (0 : ℚ))) (pois.getD ab.2 ((0 : ℚ), (0 : ℚ))))).foldl
        (· ++ ·) []
    some (order, removeConsecutiveDuplicates full_path)

/-- Concrete TSP instance for exercising optimality: two waypoints, one
finite leg. -/
def dWitness : ℕ → ℕ → Option ℤ := fun i j => if i = 0 ∧ j = 1 then some 3 else none

/-- Concrete TSP instance with waypoint 2 fully unreachable (all matrix
entries into or out of it are the infinity sentinel). -/
def dEnclosed : ℕ → ℕ → Option ℤ := fun i j => if i = 2 ∨ j = 2 then none else some 1

/-- Concrete TSP instance where every leg costs 1, so all tours tie. -/
def dTie : ℕ → ℕ → Option ℤ := fun _ _ => some 1

/-- Concrete POI feature list whose last (and only) element is a point. -/
def poiDataC1 : List Feature := [⟨.point ((1 : ℚ), (2 : ℚ))⟩]

/-- Concrete boundary feature list holding two genuine polygons. -/
def boundaryDataC1 : List Feature :=
  [⟨.polygon ⟨[((0 : ℚ), (0 : ℚ)), ((1 : ℚ), (0 : ℚ)), ((1 : ℚ), (1 : ℚ)), ((0 : ℚ), (0 : ℚ))], []⟩⟩,
   ⟨.polygon ⟨[((2 : ℚ), (2 : ℚ)), ((3 : ℚ), (2 : ℚ)), ((3 : ℚ), (3 : ℚ)), ((2 : ℚ), (2 : ℚ))], []⟩⟩]

/-- A tiny nonzero rational, `10⁻⁶`, written in lowest terms. -/
def epsQ : ℚ := ⟨1, 1000000, by norm_num, by norm_num⟩

/-- Two POIs at exact distance 5. -/
def poisPair : List Pt := [((0 : ℚ), (0 : ℚ)), ((3 : ℚ), (4 : ℚ))]

/-- Two POIs whose coordinates differ by only `10⁻⁶`. -/
def nearDuplicatePois : List Pt := [((0 : ℚ), (0 : ℚ)), ((0 : ℚ), epsQ)]

/-- A degenerate obstacle whose exterior ring has only two vertices and is
not closed. -/
def badRingPolygon : Polygon := ⟨[((0 : ℚ), (0 : ℚ)), ((1 : ℚ), (1 : ℚ))], []⟩

/-- A single waypoint — fewer than the two the spec demands. -/
def singlePoi : List Pt := [((5 : ℚ), (5 : ℚ))]

/-- The waypoints of the spec's Scenario A. -/
def scenarioAPois : List Pt := [((0 : ℚ), (0 : ℚ)), ((10 : ℚ), (0 : ℚ)), ((10 : ℚ), (10 : ℚ))]

/-- A single origin waypoint for exercising the assembled route. -/
def originOnly : List Pt := [((0 : ℚ), (0 : ℚ))]

/-- The buggy loop body appends the last POI feature's polygon, whatever
boundary feature is iterated. -/
theorem boundaryStep_polygon (pd : List Feature) (f : Feature) (pg : Polygon)
    (hf : pd.getLast? = some f) (hg : f.geometry = .polygon pg)
    (bs : List Polygon) (a : Feature) :
    boundaryStep pd (some bs) a = some (bs ++ [pg]) := by
  simp [boundaryStep, hf, hg]

/-- The buggy loop body appends nothing when the last POI feature is not a
polygon, whatever boundary feature is iterated. -/
theorem boundaryStep_not_polygon (pd : List Feature) (f : Feature)
    (hf : pd.getLast? = some f) (hg : ∀ pg, f.geometry ≠ .polygon pg)
    (bs : List Polygon) (a : Feature) :
    boundaryStep pd (some bs) a = some bs := by
  cases hgg : f.geometry with
  | polygon pg => exact absurd hgg (hg pg)
  | point p => simp [boundaryStep, hf, hgg]
  | other => simp [boundaryStep, hf, hgg]

/-- Folding the buggy body over any boundary list, from any accumulator,
appends one copy of the stale polygon per boundary feature. -/
theorem parseBoundaries_fold_polygon (pd : List Feature) (f : Feature) (pg : Polygon)
    (hf : pd.getLast? = some f) (hg : f.geometry = .polygon pg) :
    ∀ (l : List Feature) (bs : List Polygon),
      l.foldl (boundaryStep pd) (some bs) = some (bs ++ List.replicate l.length pg) := by
  intro l
  induction l with
  | nil => intro bs; simp
  | cons a l ih =>
    intro bs
    rw [List.foldl_cons, boundaryStep_polygon pd f pg hf hg bs a, ih (bs ++ [pg])]
    simp [List.replicate_succ]

/-- Folding the buggy body over any boundary list appends nothing when the
stale feature is not a polygon. -/
theorem parseBoundaries_fold_not_polygon (pd : List Feature) (f : Feature)
    (hf : pd.getLast? = some f) (hg : ∀ pg, f.geometry ≠ .polygon pg) :
    ∀ (l : List Feature) (bs : List Polygon),
      l.foldl (boundaryStep pd) (some bs) = some bs := by
  intro l
  induction l with
  | nil => intro bs; simp
  | cons a l ih =>
    intro bs
    rw [List.foldl_cons, boundaryStep_not_polygon pd f hf hg bs a, ih bs]

/-- C1: the boundaries parsing loop never reads the iterated boundary
feature: when the last POI feature's geometry is a polygon, the obstacle
list is that one geometry replicated once per boundary feature; otherwise
(in particular, when the last POI feature is a point) the obstacle list is
empty, so the visibility graph is built with zero obstacles. -/
theorem parse_boundaries_reads_stale_feature (pois_data boundaries_data : List Feature)
    (f : Feature) (hf : pois_data.getLast? = some f) :
    (∀ pg, f.geometry = .polygon pg →
      parseBoundaries pois_data boundaries_data =
        some (List.replicate boundaries_data.length pg)) ∧
    ((∀ pg, f.geometry ≠ .polygon pg) →
      parseBoundaries pois_data boundaries_data = some []) := by
  constructor
  · intro pg hpg
    rw [parseBoundaries, parseBoundaries_fold_polygon pois_data f pg hf hpg boundaries_data []]
    rw [List.nil_append]
  · intro hnp
    rw [parseBoundaries, parseBoundaries_fold_not_polygon pois_data f hf hnp boundaries_data []]

/-- Witness for C1: one POI feature that is a point, two boundary features
that are genuine polygons — the parsed obstacle list is nevertheless
empty. -/
theorem parse_boundaries_reads_stale_feature_witness :
    parseBoundaries poiDataC1 boundaryDataC1 = some [] :=
  (parse_boundaries_reads_stale_feature poiDataC1 boundaryDataC1
    ⟨.point ((1 : ℚ), (2 : ℚ))⟩ rfl).2 (fun _ h => GeomShape.noConfusion h)

/-- Completeness of the permutation enumeration: every permutation of `l`
appears in the fuelled enumeration, given enough fuel. -/
theorem permsLexAux_complete :
    ∀ (fuel : ℕ) (l p : List ℕ), p.Perm l → l.length ≤ fuel → p ∈ permsLexAux fuel l := by
  intro fuel
  induction fuel with
  | zero =>
    intro l p hp hl
    have hnil : l = [] := List.eq_nil_of_length_eq_zero (Nat.le_zero.mp hl)
    subst hnil
    have hpn : p = [] := hp.eq_nil
    simp [hpn, permsLexAux]
  | succ fuel ih =>
    intro l p hp hl
    cases l with
    | nil =>
      have hpn : p = [] := hp.eq_nil
      simp [hpn, permsLexAux]
    | cons a as =>
      cases p with
      | nil =>
        have := hp.length_eq
        simp at this
      | cons x xs =>
        have hx := List.cons_perm_iff_perm_erase.mp hp
        simp only [permsLexAux]
        refine List.mem_flatMap.mpr ⟨x, hx.1, List.mem_map.mpr ⟨xs, ?_, rfl⟩⟩
        refine ih ((a :: as).erase x) xs hx.2 ?_
        rw [List.length_erase_of_mem hx.1]
        simp only [List.length_cons] at hl ⊢
        omega

/-- If every permutation in a block is infeasible, the TSP fold leaves the
incumbent unchanged. -/
theorem tsp_foldl_infeasible {α : Type} [AddCommMonoid α] [LinearOrder α]
    (d : ℕ → ℕ → Option α) :
    ∀ (l : List (List ℕ)) (b : Option (List ℕ × α)),
      (∀ p ∈ l, tourCost d (0 :: p) = none) → l.foldl (tspStep d) b = b := by
  intro l
  induction l with
  | nil => intro b _; rfl
  | cons a l ih =>
    intro b h
    rw [List.foldl_cons]
    have ha : tspStep d b a = b := by
      unfold tspStep
      rw [h a (List.mem_cons_self a l)]
    rw [ha]
    exact ih b (fun p hp => h p (List.mem_cons_of_mem a hp))

/-- The TSP fold returns a cost no larger than any feasible permutation in
its block, and no larger than the incoming incumbent. -/
theorem tsp_foldl_min {α : Type} [AddCommMonoid α] [LinearOrder α]
    (d : ℕ → ℕ → Option α) :
    ∀ (l : List (List ℕ)) (b : Option (List ℕ × α)) (o : List ℕ) (c : α),
      l.foldl (tspStep d) b = some (o, c) →
      (∀ p ∈ l, ∀ c', tourCost d (0 :: p) = some c' → c ≤ c') ∧
      (∀ o0 c0, b = some (o0, c0) → c ≤ c0) := by
  intro l
  induction l with
  | nil =>
    intro b o c h
    simp only [List.foldl_nil] at h
    refine ⟨by simp, fun o0 c0 hb => ?_⟩
    rw [hb] at h
    have := Option.some.inj h
    exact le_of_eq (congrArg Prod.snd this).symm
  | cons a l ih =>
    intro b o c h
    rw [List.foldl_cons] at h
    obtain ⟨ih1, ih2⟩ := ih (tspStep d b a) o c h
    constructor
    · intro p hp c' hc'
      rcases List.mem_cons.mp hp with rfl | hp
      · unfold tspStep at ih2
        simp only [hc'] at ih2
        cases hb : b with
        | none =>
          simp only [hb] at ih2
          exact ih2 (0 :: p) c' rfl
        | some bc =>
          obtain ⟨bo, m⟩ := bc
          simp only [hb] at ih2
          by_cases hlt : c' < m
          · rw [if_pos hlt] at ih2
            exact ih2 (0 :: p) c' rfl
          · rw [if_neg hlt] at ih2
            exact le_trans (ih2 bo m rfl) (le_of_not_lt hlt)
      · exact ih1 p hp c' hc'
    · intro o0 c0 hb
      subst hb
      unfold tspStep at ih2
      cases ht : tourCost d (0 :: a) with
      | none =>
        simp only [ht] at ih2
        exact ih2 o0 c0 rfl
      | some t =>
        simp only [ht] at ih2
        by_cases hlt : t < c0
        · rw [if_pos hlt] at ih2
          exact le_trans (ih2 (0 :: a) t rfl) (le_of_lt hlt)
        · rw [if_neg hlt] at ih2
          exact ih2 o0 c0 rfl

/-- C2: the brute-force search is exactly optimal — its returned total cost
is at most the cost of every all-finite permutation of waypoint indices
`1..n-1` prefixed by the fixed origin `0`. -/
theorem solveTSP_optimal {α : Type} [AddCommMonoid α] [LinearOrder α]
    (d : ℕ → ℕ → Option α) (n : ℕ) (o : List ℕ) (c : α)
    (h : solveTSP d n = some (o, c)) (p : List ℕ) (c' : α)
    (hp : p.Perm (List.range' 1 (n - 1))) (hc' : tourCost d (0 :: p) = some c') :
    c ≤ c' :=
  (tsp_foldl_min d (permsLex (List.range' 1 (n - 1))) none o c h).1 p
    (permsLexAux_complete _ _ _ hp (le_refl _)) c' hc'

/-- Witness for C2 on a concrete two-waypoint instance. -/
theorem solveTSP_optimal_witness : (3 : ℤ) ≤ 3 :=
  solveTSP_optimal dWitness 2 [0, 1] 3 (by decide) [1] 3 (by decide) (by decide)

/-- C3: if every enumerated permutation has an infinite leg, the search ends
with no incumbent — the `NoFeasibleTourError` outcome (the code's
`not best_order` branch, which reports failure and assembles no route). -/
theorem solveTSP_no_feasible_tour {α : Type} [AddCommMonoid α] [LinearOrder α]
    (d : ℕ → ℕ → Option α) (n : ℕ)
    (h : ∀ p ∈ permsLex (List.range' 1 (n - 1)), tourCost d (0 :: p) = none) :
    solveTSP d n = none := by
  unfold solveTSP
  exact tsp_foldl_infeasible d _ none h

/-- Witness for C3: three waypoints, waypoint 2 fully enclosed (no finite
entry into or out of it) — the search fails with no tour. -/
theorem solveTSP_no_feasible_tour_witness : solveTSP dEnclosed 3 = none :=
  solveTSP_no_feasible_tour dEnclosed 3 (by decide)

/-- The TSP fold keeps the *first* permutation achieving the final cost:
every permutation enumerated before the selected one is infeasible or
strictly worse, and the incoming incumbent was strictly worse. -/
theorem tsp_foldl_first {α : Type} [AddCommMonoid α] [LinearOrder α]
    (d : ℕ → ℕ → Option α) :
    ∀ (l : List (List ℕ)) (b : Option (List ℕ × α)) (o : List ℕ) (c : α),
      l.foldl (tspStep d) b = some (o, c) →
      (b = some (o, c) ∧ ∀ p ∈ l, ∀ c', tourCost d (0 :: p) = some c' → ¬ c' < c) ∨
      (∃ l₁ p l₂, l = l₁ ++ p :: l₂ ∧ o = 0 :: p ∧ tourCost d (0 :: p) = some c ∧
        (∀ o0 c0, b = some (o0, c0) → c < c0) ∧
        (∀ q ∈ l₁, ∀ c', tourCost d (0 :: q) = some c' → c < c')) := by
  intro l
  induction l with
  | nil =>
    intro b o c h
    simp only [List.foldl_nil] at h
    exact Or.inl ⟨h, by simp⟩
  | cons a l ih =>
    intro b o c h
    rw [List.foldl_cons] at h
    rcases ih (tspStep d b a) o c h with ⟨hb', hl⟩ | ⟨l₁, p, l₂, hdecomp, ho, hc, hbcond, hl₁⟩
    · -- the final result is exactly the incumbent right after the step on a
      unfold tspStep at hb'
      cases ht : tourCost d (0 :: a) with
      | none =>
        simp only [ht] at hb'
        refine Or.inl ⟨hb', fun p hp c' hc' => ?_⟩
        rcases List.mem_cons.mp hp with rfl | hp
        · rw [ht] at hc'; exact Option.noConfusion hc'
        · exact hl p hp c' hc'
      | some t =>
        simp only [ht] at hb'
        cases hbv : b with
        | none =>
          simp only [hbv] at hb'
          have hoc := Option.some.inj hb'
          have ho : o = 0 :: a := (congrArg Prod.fst hoc).symm
          have hct : c = t := (congrArg Prod.snd hoc).symm
          refine Or.inr ⟨[], a, l, by simp, ho, by rw [hct]; exact ht, ?_, by simp⟩
          intro o0 c0 hb0
          exact Option.noConfusion hb0
        | some bc =>
          obtain ⟨bo, m⟩ := bc
          simp only [hbv] at hb'
          by_cases hlt : t < m
          · rw [if_pos hlt] at hb'
            have hoc := Option.some.inj hb'
            have ho : o = 0 :: a := (congrArg Prod.fst hoc).symm
            have hct : c = t := (congrArg Prod.snd hoc).symm
            refine Or.inr ⟨[], a, l, by simp, ho, by rw [hct]; exact ht, ?_, by simp⟩
            intro o0 c0 hb0
            have h2 := Option.some.inj hb0
            have hm : c0 = m := (congrArg Prod.snd h2).symm
            rw [hm, hct]
            exact hlt
          · rw [if_neg hlt] at hb'
            have hoc := Option.some.inj hb'
            have hom : bo = o := congrArg Prod.fst hoc
            have hmc : m = c := congrArg Prod.snd hoc
            refine Or.inl ⟨hb', fun p hp c' hc' => ?_⟩
            rcases List.mem_cons.mp hp with rfl | hp
            · rw [ht] at hc'
              have : c' = t := (Option.some.inj hc').symm
              rw [this, ← hmc]
              exact hlt
            · exact hl p hp c' hc'
    · -- the final result was selected strictly inside l
      refine Or.inr ⟨a :: l₁, p, l₂, by rw [hdecomp]; rfl, ho, hc, ?_, ?_⟩
      · intro o0 c0 hbv
        subst hbv
        unfold tspStep at hbcond
        cases ht : tourCost d (0 :: a) with
        | none =>
          simp only [ht] at hbcond
          exact hbcond o0 c0 rfl
        | some t =>
          simp only [ht] at hbcond
          by_cases hlt : t < c0
          · rw [if_pos hlt] at hbcond
            exact lt_trans (hbcond (0 :: a) t rfl) hlt
          · rw [if_neg hlt] at hbcond
            exact hbcond o0 c0 rfl
      · intro q hq c' hc'
        rcases List.mem_cons.mp hq with rfl | hq
        · unfold tspStep at hbcond
          simp only [hc'] at hbcond
          cases hbv : b with
          | none =>
            simp only [hbv] at hbcond
            exact hbcond (0 :: q) c' rfl
          | some bc =>
            obtain ⟨bo, m⟩ := bc
            simp only [hbv] at hbcond
            by_cases hlt : c' < m
            · rw [if_pos hlt] at hbcond
              exact hbcond (0 :: q) c' rfl
            · rw [if_neg hlt] at hbcond
              exact lt_of_lt_of_le (hbcond bo m rfl) (le_of_not_lt hlt)
        · exact hl₁ q hq c' hc'

/-- C6 (amended): deterministic tie-breaking — the search returns the first
permutation, in the fixed `itertools` enumeration order, that achieves the
returned cost: every permutation enumerated before it is infeasible or
strictly more expensive. -/
theorem solveTSP_first_of_ties {α : Type} [AddCommMonoid α] [LinearOrder α]
    (d : ℕ → ℕ → Option α) (n : ℕ) (o : List ℕ) (c : α)
    (h : solveTSP d n = some (o, c)) :
    ∃ l₁ p l₂, permsLex (List.range' 1 (n - 1)) = l₁ ++ p :: l₂ ∧ o = 0 :: p ∧
      tourCost d (0 :: p) = some c ∧
      ∀ q ∈ l₁, ∀ c', tourCost d (0 :: q) = some c' → c < c' := by
  rcases tsp_foldl_first d (permsLex (List.range' 1 (n - 1))) none o c h with
    ⟨hb, _⟩ | ⟨l₁, p, l₂, hdecomp, ho, hc, _, hl₁⟩
  · exact Option.noConfusion hb
  · exact ⟨l₁, p, l₂, hdecomp, ho, hc, hl₁⟩

/-- Witness for C6 on a concrete all-ties instance: with every leg costing
1, the search returns `[0, 1, 2]`, the first permutation in enumeration
order, at total cost 2. -/
theorem solveTSP_first_of_ties_witness :
    ∃ l₁ p l₂, permsLex (List.range' 1 2) = l₁ ++ p :: l₂ ∧ [0, 1, 2] = 0 :: p ∧
      tourCost dTie (0 :: p) = some (2 : ℤ) ∧
      ∀ q ∈ l₁, ∀ c', tourCost dTie (0 :: q) = some c' → (2 : ℤ) < c' :=
  solveTSP_first_of_ties dTie 3 [0, 1, 2] 2 (by decide)

/-- The real part of the complex embedding of a rational point. -/
theorem toC_re (p : Pt) : (toC p).re = (p.1 : ℝ) := rfl

/-- The imaginary part of the complex embedding of a rational point. -/
theorem toC_im (p : Pt) : (toC p).im = (p.2 : ℝ) := rfl

/-- The `math.hypot` edge weight is the Euclidean metric of the plane. -/
theorem edgeWeight_eq_dist (p q : Pt) : edgeWeight p q = dist (toC p) (toC q) := by
  rw [Complex.dist_eq, Complex.abs_apply, Complex.normSq_apply]
  unfold edgeWeight hypot
  congr 1
  simp only [Complex.sub_re, Complex.sub_im, toC_re, toC_im]
  ring

/-- Edge weights are symmetric. -/
theorem edgeWeight_comm (p q : Pt) : edgeWeight p q = edgeWeight q p := by
  rw [edgeWeight_eq_dist, edgeWeight_eq_dist, dist_comm]

/-- The edge weight from a point to itself is zero. -/
theorem edgeWeight_self (p : Pt) : edgeWeight p p = 0 := by
  rw [edgeWeight_eq_dist, dist_self]

/-- Edge weights are non-negative. -/
theorem edgeWeight_nonneg (p q : Pt) : 0 ≤ edgeWeight p q := by
  rw [edgeWeight_eq_dist]
  exact dist_nonneg

/-- The triangle inequality for edge weights. -/
theorem edgeWeight_triangle (p q r : Pt) :
    edgeWeight p r ≤ edgeWeight p q + edgeWeight q r := by
  rw [edgeWeight_eq_dist, edgeWeight_eq_dist, edgeWeight_eq_dist]
  exact dist_triangle _ _ _

/-- shapely's `intersects` test on a two-point line is symmetric in the
endpoints: a segment is the same point set either way around. -/
theorem lineIntersectsPoly_symm (p q : Pt) (b : Polygon) :
    lineIntersectsPoly p q b ↔ lineIntersectsPoly q p b := by
  unfold lineIntersectsPoly
  rw [segment_symm]

/-- shapely's `touches` test on a two-point line is symmetric in the
endpoints. -/
theorem lineTouchesPoly_symm (p q : Pt) (b : Polygon) :
    lineTouchesPoly p q b ↔ lineTouchesPoly q p b := by
  unfold lineTouchesPoly
  rw [segment_symm, openSegment_symm]

/-- The obstruction predicate is symmetric in the segment endpoints. -/
theorem segmentEntersSolid_symm (p q : Pt) (b : Polygon) :
    segmentEntersSolid p q b ↔ segmentEntersSolid q p b := by
  unfold segmentEntersSolid
  rw [lineIntersectsPoly_symm, lineTouchesPoly_symm]

/-- Edge admissibility is symmetric in the segment endpoints. -/
theorem is_valid_edge_symm (p q : Pt) (boundaries : List Polygon) :
    is_valid_edge p q boundaries ↔ is_valid_edge q p boundaries := by
  unfold is_valid_edge
  constructor
  · intro h b hb hqp
    exact h b hb ((segmentEntersSolid_symm p q b).mpr hqp)
  · intro h b hb hpq
    exact h b hb ((segmentEntersSolid_symm q p b).mpr hpq)

/-- C8: the visibility predicate is symmetric — `segmentEntersSolid(p,q,O)`
agrees with `segmentEntersSolid(q,p,O)` for every obstacle `O`, and
`is_valid_edge(p1,p2,boundaries)` agrees with `is_valid_edge(p2,p1,
boundaries)` for every boundary list. -/
theorem visibility_symmetric (p q : Pt) (b : Polygon) (boundaries : List Polygon) :
    (segmentEntersSolid p q b ↔ segmentEntersSolid q p b) ∧
    (is_valid_edge p q boundaries ↔ is_valid_edge q p boundaries) :=
  ⟨segmentEntersSolid_symm p q b, is_valid_edge_symm p q boundaries⟩

/-- Membership in the fuelled selection enumeration: exactly the
duplicate-free sequences over `l` within the fuel bound. -/
theorem mem_sels :
    ∀ (fuel : ℕ) (l s : List Pt), l.Nodup →
      (s ∈ sels fuel l ↔ s.Nodup ∧ (∀ x ∈ s, x ∈ l) ∧ s.length ≤ fuel) := by
  intro fuel
  induction fuel with
  | zero =>
    intro l s _
    constructor
    · intro hs
      simp only [sels, List.mem_singleton] at hs
      subst hs
      simp
    · rintro ⟨_, _, hlen⟩
      have hs : s = [] := List.eq_nil_of_length_eq_zero (Nat.le_zero.mp hlen)
      simp [hs, sels]
  | succ fuel ih =>
    intro l s hl
    cases l with
    | nil =>
      simp only [sels, List.mem_singleton]
      constructor
      · intro hs
        subst hs
        simp
      · rintro ⟨_, hsub, _⟩
        cases s with
        | nil => rfl
        | cons a t => exact absurd (hsub a (List.mem_cons_self a t)) (List.not_mem_nil a)
    | cons a as =>
      simp only [sels, List.mem_cons, List.mem_flatMap, List.mem_map]
      constructor
      · intro hs
        rcases hs with rfl | ⟨x, hx, s', hs', rfl⟩
        · simp
        · obtain ⟨hnds', hsubs', hlen'⟩ := (ih ((a :: as).erase x) s' (hl.erase x)).mp hs'
          refine ⟨?_, ?_, ?_⟩
          · refine List.nodup_cons.mpr ⟨fun hxin => ?_, hnds'⟩
            exact (hl.mem_erase_iff.mp (hsubs' x hxin)).1 rfl
          · intro y hy
            rcases List.mem_cons.mp hy with rfl | hy
            · exact hx
            · exact List.mem_cons.mp (hl.mem_erase_iff.mp (hsubs' y hy)).2
          · simpa using Nat.succ_le_succ hlen'
      · rintro ⟨hnd, hsub, hlen⟩
        cases s with
        | nil => exact Or.inl rfl
        | cons x s' =>
          refine Or.inr ⟨x, hsub x (List.mem_cons_self x s'), s', ?_, rfl⟩
          refine (ih _ s' (hl.erase x)).mpr ⟨(List.nodup_cons.mp hnd).2, ?_, ?_⟩
          · intro y hy
            have hyx : y ≠ x := fun h => (List.nodup_cons.mp hnd).1 (h ▸ hy)
            exact hl.mem_erase_iff.mpr ⟨hyx, List.mem_cons.mpr (hsub y (List.mem_cons_of_mem _ hy))⟩
          · simp only [List.length_cons] at hlen
            omega

/-- Membership in the candidate enumeration over a duplicate-free node list:
exactly the duplicate-free sequences over the nodes. -/
theorem mem_orderedSelections (l s : List Pt) (hl : l.Nodup) :
    s ∈ orderedSelections l ↔ s.Nodup ∧ ∀ x ∈ s, x ∈ l := by
  rw [orderedSelections, mem_sels l.length l s hl]
  constructor
  · rintro ⟨h1, h2, _⟩
    exact ⟨h1, h2⟩
  · rintro ⟨h1, h2⟩
    refine ⟨h1, h2, ?_⟩
    calc s.length = s.toFinset.card := (List.toFinset_card_of_nodup h1).symm
      _ ≤ l.toFinset.card :=
        Finset.card_le_card (fun x hx => List.mem_toFinset.mpr (h2 x (List.mem_toFinset.mp hx)))
      _ ≤ l.length := l.toFinset_card_le

/-- Characterisation of `List.min?` over the reals: the least member. -/
theorem min?_spec (L : List ℝ) (a : ℝ) :
    L.min? = some a ↔ a ∈ L ∧ ∀ b ∈ L, a ≤ b := by
  haveI : Std.Antisymm ((· : ℝ) ≤ ·) := ⟨fun h1 h2 => le_antisymm h1 h2⟩
  exact List.min?_eq_some_iff (fun x => le_refl x) (fun x y => min_choice x y)
    (fun _ _ _ => le_min_iff)

/-- Any vertex sequence from `u` to `v` costs at least the direct edge
weight (iterated triangle inequality). -/
theorem walkCost_ge_direct :
    ∀ (l : List Pt) (u v : Pt),
      l.head? = some u → l.getLast? = some v → edgeWeight u v ≤ walkCost l := by
  intro l
  induction l with
  | nil => intro u v h _; exact absurd h (by simp)
  | cons x t ih =>
    intro u v hu hv
    have hux : u = x := by
      simp only [List.head?_cons, Option.some.injEq] at hu
      exact hu.symm
    subst hux
    cases t with
    | nil =>
      have hvu : v = u := by
        simp only [List.getLast?_singleton, Option.some.injEq] at hv
        exact hv.symm
      subst hvu
      rw [edgeWeight_self]
      exact le_of_eq rfl
    | cons y s =>
      have hv' : (y :: s).getLast? = some v := by
        rwa [List.getLast?_cons_cons] at hv
      have ih2 := ih y v (by simp) hv'
      calc edgeWeight u v ≤ edgeWeight u y + edgeWeight y v := edgeWeight_triangle u y v
        _ ≤ edgeWeight u y + walkCost (y :: s) := by linarith
        _ = walkCost (u :: y :: s) := rfl

/-- `getD` at an in-range index is a member of the list. -/
theorem getD_mem_of_lt (l : List Pt) (i : ℕ) (d : Pt) (h : i < l.length) :
    l.getD i d ∈ l := by
  rw [List.getD_eq_getElem l d h]
  exact List.getElem_mem h

/-- Every POI coordinate is a node of the visibility graph. -/
theorem mem_collectNodes_of_mem_pois (pois : List Pt) (boundaries : List Polygon)
    (x : Pt) (hx : x ∈ pois) : x ∈ collectNodes pois boundaries := by
  unfold collectNodes
  rw [List.mem_dedup, List.mem_append]
  exact Or.inl hx

/-- The collected node list is duplicate-free (the `set()` deduplication). -/
theorem collectNodes_nodup (pois : List Pt) (boundaries : List Polygon) :
    (collectNodes pois boundaries).Nodup :=
  List.nodup_dedup _

/-- With no obstacles every node pair is directly joined, and the direct
edge is the cheapest path, so the shortest-path length between two graph
nodes is exactly the Euclidean edge weight. -/
theorem shortest_path_length_no_obstacles (nodes : List Pt) (u v : Pt)
    (hnd : nodes.Nodup) (hu : u ∈ nodes) (hv : v ∈ nodes) :
    shortest_path_length nodes [] u v = some (edgeWeight u v) := by
  classical
  unfold shortest_path_length
  rw [min?_spec]
  constructor
  · by_cases huv : u = v
    · subst huv
      refine List.mem_map.mpr ⟨[u], List.mem_filter.mpr ⟨?_, ?_⟩, ?_⟩
      · exact (mem_orderedSelections nodes [u] hnd).mpr ⟨by simp, by simpa using hu⟩
      · rw [decide_eq_true_eq]
        exact ⟨rfl, rfl, by simp, by simp, by simpa using hu⟩
      · show walkCost [u] = edgeWeight u u
        rw [edgeWeight_self]
        rfl
    · refine List.mem_map.mpr ⟨[u, v], List.mem_filter.mpr ⟨?_, ?_⟩, ?_⟩
      · refine (mem_orderedSelections nodes [u, v] hnd).mpr ⟨by simp [huv], ?_⟩
        intro x hx
        simp only [List.mem_cons, List.mem_singleton, List.not_mem_nil, or_false] at hx
        rcases hx with rfl | rfl
        · exact hu
        · exact hv
      · rw [decide_eq_true_eq]
        refine ⟨rfl, rfl, ?_, by simp [huv], ?_⟩
        · exact List.chain'_cons.mpr
            ⟨⟨hu, hv, huv, fun b hb => absurd hb (List.not_mem_nil b)⟩, by simp⟩
        · intro x hx
          simp only [List.mem_cons, List.mem_singleton, List.not_mem_nil, or_false] at hx
          rcases hx with rfl | rfl
          · exact hu
          · exact hv
      · show walkCost [u, v] = edgeWeight u v
        show edgeWeight u v + walkCost [v] = edgeWeight u v
        show edgeWeight u v + 0 = edgeWeight u v
        ring
  · intro b hb
    obtain ⟨l, hl, rfl⟩ := List.mem_map.mp hb
    have hpath := of_decide_eq_true (List.mem_filter.mp hl).2
    exact walkCost_ge_direct l u v hpath.1 hpath.2.1

/-- With the empty obstacle list, every distance-matrix entry is the exact
Euclidean distance between the two waypoints. -/
theorem distance_matrix_empty_eq (pois : List Pt) (i j : ℕ)
    (hi : i < pois.length) (hj : j < pois.length) :
    distance_matrix pois [] i j =
      some (edgeWeight (pois.getD i ((0 : ℚ), (0 : ℚ))) (pois.getD j ((0 : ℚ), (0 : ℚ)))) := by
  by_cases hij : i = j
  · subst hij
    rw [distance_matrix, if_pos rfl, edgeWeight_self]
  · rw [distance_matrix, if_neg hij]
    exact shortest_path_length_no_obstacles _ _ _ (collectNodes_nodup pois [])
      (mem_collectNodes_of_mem_pois pois [] _ (getD_mem_of_lt pois i _ hi))
      (mem_collectNodes_of_mem_pois pois [] _ (getD_mem_of_lt pois j _ hj))

/-- C5: for every waypoint list and the empty obstacle set, the
distance-matrix entry `(i, j)` equals the exact Euclidean distance between
waypoints `i` and `j`. -/
theorem distance_matrix_no_obstacles (pois : List Pt) (i j : ℕ)
    (hi : i < pois.length) (hj : j < pois.length) :
    distance_matrix pois [] i j =
      some (edgeWeight (pois.getD i ((0 : ℚ), (0 : ℚ))) (pois.getD j ((0 : ℚ), (0 : ℚ)))) :=
  distance_matrix_empty_eq pois i j hi hj

/-- Witness for C5: two POIs at distance 5. -/
theorem distance_matrix_no_obstacles_witness :
    distance_matrix poisPair [] 0 1 =
      some (edgeWeight (poisPair.getD 0 ((0 : ℚ), (0 : ℚ))) (poisPair.getD 1 ((0 : ℚ), (0 : ℚ)))) :=
  distance_matrix_no_obstacles poisPair 0 1 (by decide) (by decide)

/-- Appending one vertex to a sequence adds the closing edge weight. -/
theorem walkCost_append_single :
    ∀ (l : List Pt) (b a : Pt), l.getLast? = some b →
      walkCost (l ++ [a]) = walkCost l + edgeWeight b a := by
  intro l
  induction l with
  | nil => intro b a h; exact absurd h (by simp)
  | cons x t ih =>
    intro b a h
    cases t with
    | nil =>
      have hbx : b = x := by
        simp only [List.getLast?_singleton, Option.some.injEq] at h
        exact h.symm
      subst hbx
      show edgeWeight b a + walkCost [a] = walkCost [b] + edgeWeight b a
      show edgeWeight b a + 0 = 0 + edgeWeight b a
      ring
    | cons y s =>
      have h' : (y :: s).getLast? = some b := by
        rwa [List.getLast?_cons_cons] at h
      show edgeWeight x y + walkCost ((y :: s) ++ [a]) =
        edgeWeight x y + walkCost (y :: s) + edgeWeight b a
      rw [ih b a h']
      ring

/-- Reversing a vertex sequence preserves its total weight. -/
theorem walkCost_reverse : ∀ l : List Pt, walkCost l.reverse = walkCost l := by
  intro l
  induction l with
  | nil => rfl
  | cons x t ih =>
    cases t with
    | nil => rfl
    | cons y s =>
      rw [List.reverse_cons, walkCost_append_single ((y :: s).reverse) y x
        (by rw [List.getLast?_reverse]; rfl), ih]
      show walkCost (y :: s) + edgeWeight y x = edgeWeight x y + walkCost (y :: s)
      rw [edgeWeight_comm y x]
      ring

/-- Visibility-graph adjacency is symmetric (undirected graph). -/
theorem adjacent_symm (nodes : List Pt) (boundaries : List Polygon) (u v : Pt)
    (h : adjacent nodes boundaries u v) : adjacent nodes boundaries v u :=
  ⟨h.2.1, h.1, h.2.2.1.symm, (is_valid_edge_symm u v boundaries).mp h.2.2.2⟩

/-- Reversing a path gives a path in the opposite direction. -/
theorem isPathIn_reverse (nodes : List Pt) (boundaries : List Polygon) (u v : Pt)
    (l : List Pt) (h : isPathIn nodes boundaries u v l) :
    isPathIn nodes boundaries v u l.reverse := by
  obtain ⟨h1, h2, h3, h4, h5⟩ := h
  refine ⟨?_, ?_, ?_, List.nodup_reverse.mpr h4, ?_⟩
  · rw [List.head?_reverse]
    exact h2
  · rw [List.getLast?_reverse]
    exact h1
  · rw [List.chain'_reverse]
    exact h3.imp (fun a b hab => adjacent_symm nodes boundaries a b hab)
  · intro x hx
    exact h5 x (List.mem_reverse.mp hx)

/-- Two real lists that dominate each other have the same minimum. -/
theorem min?_congr_dominate (L₁ L₂ : List ℝ)
    (h₁ : ∀ a ∈ L₁, ∃ b ∈ L₂, b ≤ a) (h₂ : ∀ b ∈ L₂, ∃ a ∈ L₁, a ≤ b) :
    L₁.min? = L₂.min? := by
  cases hL1 : L₁.min? with
  | none =>
    have he1 : L₁ = [] := List.min?_eq_none_iff.mp hL1
    subst he1
    cases hL2 : L₂.min? with
    | none => rfl
    | some m =>
      obtain ⟨a, ha, _⟩ := h₂ m ((min?_spec L₂ m).mp hL2).1
      exact absurd ha (List.not_mem_nil a)
  | some m1 =>
    obtain ⟨hm1, hmin1⟩ := (min?_spec L₁ m1).mp hL1
    cases hL2 : L₂.min? with
    | none =>
      have he2 : L₂ = [] := List.min?_eq_none_iff.mp hL2
      subst he2
      obtain ⟨b, hb, _⟩ := h₁ m1 hm1
      exact absurd hb (List.not_mem_nil b)
    | some m2 =>
      obtain ⟨hm2, hmin2⟩ := (min?_spec L₂ m2).mp hL2
      obtain ⟨b, hb, hbm⟩ := h₁ m1 hm1
      obtain ⟨a, ha, ham⟩ := h₂ m2 hm2
      have h12 : m1 ≤ m2 := le_trans (hmin1 a ha) ham
      have h21 : m2 ≤ m1 := le_trans (hmin2 b hb) hbm
      rw [le_antisymm h12 h21]

/-- Shortest-path lengths over the undirected visibility graph are
symmetric in source and target. -/
theorem shortest_path_length_symm (nodes : List Pt) (boundaries : List Polygon)
    (u v : Pt) (hnd : nodes.Nodup) :
    shortest_path_length nodes boundaries u v = shortest_path_length nodes boundaries v u := by
  classical
  unfold shortest_path_length
  apply min?_congr_dominate
  · intro a ha
    obtain ⟨l, hl, rfl⟩ := List.mem_map.mp ha
    obtain ⟨hsel, hdec⟩ := List.mem_filter.mp hl
    have hpath := of_decide_eq_true hdec
    obtain ⟨hnod, hsub⟩ := (mem_orderedSelections nodes l hnd).mp hsel
    refine ⟨walkCost l.reverse, List.mem_map.mpr ⟨l.reverse, List.mem_filter.mpr ⟨?_, ?_⟩, rfl⟩, ?_⟩
    · exact (mem_orderedSelections nodes l.reverse hnd).mpr
        ⟨List.nodup_reverse.mpr hnod, fun x hx => hsub x (List.mem_reverse.mp hx)⟩
    · rw [decide_eq_true_eq]
      exact isPathIn_reverse nodes boundaries u v l hpath
    · rw [walkCost_reverse]
  · intro a ha
    obtain ⟨l, hl, rfl⟩ := List.mem_map.mp ha
    obtain ⟨hsel, hdec⟩ := List.mem_filter.mp hl
    have hpath := of_decide_eq_true hdec
    obtain ⟨hnod, hsub⟩ := (mem_orderedSelections nodes l hnd).mp hsel
    refine ⟨walkCost l.reverse, List.mem_map.mpr ⟨l.reverse, List.mem_filter.mpr ⟨?_, ?_⟩, rfl⟩, ?_⟩
    · exact (mem_orderedSelections nodes l.reverse hnd).mpr
        ⟨List.nodup_reverse.mpr hnod, fun x hx => hsub x (List.mem_reverse.mp hx)⟩
    · rw [decide_eq_true_eq]
      exact isPathIn_reverse nodes boundaries v u l hpath
    · rw [walkCost_reverse]

/-- C10: the distance matrix is symmetric — entry `(i, j)` equals entry
`(j, i)` for all indices, including the unreachable-sentinel case. -/
theorem distance_matrix_symmetric (pois : List Pt) (boundaries : List Polygon) (i j : ℕ) :
    distance_matrix pois boundaries i j = distance_matrix pois boundaries j i := by
  by_cases hij : i = j
  · subst hij
    rfl
  · rw [distance_matrix, distance_matrix, if_neg hij, if_neg (Ne.symm hij)]
    exact shortest_path_length_symm _ _ _ _ (collectNodes_nodup pois boundaries)

/-- The cleaning fold preserves the no-equal-neighbours invariant of its
accumulator. -/
theorem removeConsecDups_fold_chain' :
    ∀ (l acc : List Pt), acc.Chain' (· ≠ ·) →
      (l.foldl
        (fun cleaned p =>
          if cleaned = [] ∨ cleaned.getLast? ≠ some p then cleaned ++ [p] else cleaned)
        acc).Chain' (· ≠ ·) := by
  intro l
  induction l with
  | nil => intro acc h; exact h
  | cons a l ih =>
    intro acc h
    rw [List.foldl_cons]
    apply ih
    by_cases hc : acc = [] ∨ acc.getLast? ≠ some a
    · rw [if_pos hc]
      rw [List.chain'_append]
      refine ⟨h, by simp, ?_⟩
      intro x hx y hy
      simp only [List.head?_cons, Option.mem_def, Option.some.injEq] at hy
      subst hy
      rcases hc with hc | hc
      · subst hc
        simp at hx
      · rw [Option.mem_def] at hx
        exact fun he => hc (by rw [hx, he])
    · rw [if_neg hc]
      exact h

/-- The cleaned path never has two equal consecutive points. -/
theorem removeConsecutiveDuplicates_chain' (l : List Pt) :
    (removeConsecutiveDuplicates l).Chain' (· ≠ ·) :=
  removeConsecDups_fold_chain' l [] List.chain'_nil

/-- C7: every route the pipeline produces is free of identical consecutive
points — the cleaning pass merges every run of equal adjacent points. -/
theorem route_no_consecutive_duplicates (pois : List Pt) (boundaries : List Polygon)
    (order : List ℕ) (route : List Pt)
    (h : runPipeline pois boundaries = some (order, route)) :
    route.Chain' (· ≠ ·) := by
  unfold runPipeline at h
  cases hs : solveTSP (distance_matrix pois boundaries) pois.length with
  | none =>
    simp only [hs] at h
    exact Option.noConfusion h
  | some oc =>
    obtain ⟨o, c⟩ := oc
    simp only [hs] at h
    have h2 := Option.some.inj h
    injection h2 with ho hr
    rw [← hr]
    exact removeConsecutiveDuplicates_chain' _

/-- Witness for C7: the one-waypoint pipeline run returns the empty route,
which trivially has no equal consecutive points. -/
theorem route_no_consecutive_duplicates_witness : List.Chain' (· ≠ ·) ([] : List Pt) :=
  route_no_consecutive_duplicates originOnly [] [0] [] rfl

/-- C4 (amended): the code performs no input validation at all — with a
single waypoint (fewer than the two the spec requires) and arbitrary
obstacles, the pipeline neither raises nor aborts: it returns the degenerate
order `[0]` with an empty route. -/
theorem pipeline_no_validation (p : Pt) (boundaries : List Polygon) :
    runPipeline [p] boundaries = some ([0], []) := rfl

/-- Counterexample for C4: one waypoint and an obstacle whose ring has only
two vertices and is not closed — the pipeline still succeeds with a
degenerate result instead of failing with `InvalidInputError`. -/
theorem no_input_validation_cex :
    runPipeline singlePoi [badRingPolygon] = some ([0], []) := rfl

/-- C9 (amended): graph-node identity is exact coordinate equality — the
`set()`-based deduplication keeps every coordinate pair that differs by any
nonzero amount as its own node; no tolerance or quantization is applied. -/
theorem collectNodes_exact_equality (pois : List Pt) (boundaries : List Polygon) :
    (collectNodes pois boundaries).Nodup ∧
    ∀ p : Pt, p ∈ collectNodes pois boundaries ↔
      p ∈ pois ∨ ∃ b ∈ boundaries, p ∈ b.exterior ∨ ∃ r ∈ b.interiors, p ∈ r := by
  refine ⟨collectNodes_nodup pois boundaries, fun p => ?_⟩
  simp only [collectNodes, List.mem_dedup, List.mem_append, List.mem_flatMap, List.mem_flatten]

/-- Counterexample for C9: two waypoints whose coordinates differ by only
`10⁻⁶` stay two distinct graph nodes — nothing is merged under any
tolerance. -/
theorem dedup_no_tolerance_cex : (collectNodes nearDuplicatePois []).length = 2 := by
  decide

/-- Counterexample for C6's scenario: with waypoints `(0,0)`, `(10,0)`,
`(10,10)` and no obstacles, the two candidate orders do *not* tie — `[0,1,2]`
costs `20` while `[0,2,1]` costs `10 + √200 ≈ 24.142`. -/
theorem scenarioA_not_a_tie_cex :
    tourCost (distance_matrix scenarioAPois []) [0, 1, 2] = some 20 ∧
    tourCost (distance_matrix scenarioAPois []) [0, 2, 1] = some (10 + Real.sqrt 200) ∧
    (20 : ℝ) ≠ 10 + Real.sqrt 200 := by
  have e01 : edgeWeight ((0 : ℚ), (0 : ℚ)) ((10 : ℚ), (0 : ℚ)) = 10 := by
    show Real.sqrt ((((10 : ℚ) : ℝ) - ((0 : ℚ) : ℝ)) * (((10 : ℚ) : ℝ) - ((0 : ℚ) : ℝ)) +
      (((0 : ℚ) : ℝ) - ((0 : ℚ) : ℝ)) * (((0 : ℚ) : ℝ) - ((0 : ℚ) : ℝ))) = 10
    rw [show (((10 : ℚ) : ℝ) - ((0 : ℚ) : ℝ)) * (((10 : ℚ) : ℝ) - ((0 : ℚ) : ℝ)) +
      (((0 : ℚ) : ℝ) - ((0 : ℚ) : ℝ)) * (((0 : ℚ) : ℝ) - ((0 : ℚ) : ℝ)) = 10 ^ 2 by
        push_cast; ring]
    exact Real.sqrt_sq (by norm_num)
  have e12 : edgeWeight ((10 : ℚ), (0 : ℚ)) ((10 : ℚ), (10 : ℚ)) = 10 := by
    show Real.sqrt ((((10 : ℚ) : ℝ) - ((10 : ℚ) : ℝ)) * (((10 : ℚ) : ℝ) - ((10 : ℚ) : ℝ)) +
      (((10 : ℚ) : ℝ) - ((0 : ℚ) : ℝ)) * (((10 : ℚ) : ℝ) - ((0 : ℚ) : ℝ))) = 10
    rw [show (((10 : ℚ) : ℝ) - ((10 : ℚ) : ℝ)) * (((10 : ℚ) : ℝ) - ((10 : ℚ) : ℝ)) +
      (((10 : ℚ) : ℝ) - ((0 : ℚ) : ℝ)) * (((10 : ℚ) : ℝ) - ((0 : ℚ) : ℝ)) = 10 ^ 2 by
        push_cast; ring]
    exact Real.sqrt_sq (by norm_num)
  have e02 : edgeWeight ((0 : ℚ), (0 : ℚ)) ((10 : ℚ), (10 : ℚ)) = Real.sqrt 200 := by
    show Real.sqrt ((((10 : ℚ) : ℝ) - ((0 : ℚ) : ℝ)) * (((10 : ℚ) : ℝ) - ((0 : ℚ) : ℝ)) +
      (((10 : ℚ) : ℝ) - ((0 : ℚ) : ℝ)) * (((10 : ℚ) : ℝ) - ((0 : ℚ) : ℝ))) = Real.sqrt 200
    rw [show (((10 : ℚ) : ℝ) - ((0 : ℚ) : ℝ)) * (((10 : ℚ) : ℝ) - ((0 : ℚ) : ℝ)) +
      (((10 : ℚ) : ℝ) - ((0 : ℚ) : ℝ)) * (((10 : ℚ) : ℝ) - ((0 : ℚ) : ℝ)) = 200 by
        push_cast; ring]
  have e21 : edgeWeight ((10 : ℚ), (10 : ℚ)) ((10 : ℚ), (0 : ℚ)) = 10 := by
    show Real.sqrt ((((10 : ℚ) : ℝ) - ((10 : ℚ) : ℝ)) * (((10 : ℚ) : ℝ) - ((10 : ℚ) : ℝ)) +
      (((0 : ℚ) : ℝ) - ((10 : ℚ) : ℝ)) * (((0 : ℚ) : ℝ) - ((10 : ℚ) : ℝ))) = 10
    rw [show (((10 : ℚ) : ℝ) - ((10 : ℚ) : ℝ)) * (((10 : ℚ) : ℝ) - ((10 : ℚ) : ℝ)) +
      (((0 : ℚ) : ℝ) - ((10 : ℚ) : ℝ)) * (((0 : ℚ) : ℝ) - ((10 : ℚ) : ℝ)) = 10 ^ 2 by
        push_cast; ring]
    exact Real.sqrt_sq (by norm_num)
  have d01 : distance_matrix scenarioAPois [] 0 1 = some 10 := by
    rw [distance_matrix_empty_eq scenarioAPois 0 1 (by decide) (by decide),
      show scenarioAPois.getD 0 ((0 : ℚ), (0 : ℚ)) = ((0 : ℚ), (0 : ℚ)) from rfl,
      show scenarioAPois.getD 1 ((0 : ℚ), (0 : ℚ)) = ((10 : ℚ), (0 : ℚ)) from rfl, e01]
  have d12 : distance_matrix scenarioAPois [] 1 2 = some 10 := by
    rw [distance_matrix_empty_eq scenarioAPois 1 2 (by decide) (by decide),
      show scenarioAPois.getD 1 ((0 : ℚ), (0 : ℚ)) = ((10 : ℚ), (0 : ℚ)) from rfl,
      show scenarioAPois.getD 2 ((0 : ℚ), (0 : ℚ)) = ((10 : ℚ), (10 : ℚ)) from rfl, e12]
  have d02 : distance_matrix scenarioAPois [] 0 2 = some (Real.sqrt 200) := by
    rw [distance_matrix_empty_eq scenarioAPois 0 2 (by decide) (by decide),
      show scenarioAPois.getD 0 ((0 : ℚ), (0 : ℚ)) = ((0 : ℚ), (0 : ℚ)) from rfl,
      show scenarioAPois.getD 2 ((0 : ℚ), (0 : ℚ)) = ((10 : ℚ), (10 : ℚ)) from rfl, e02]
  have d21 : distance_matrix scenarioAPois [] 2 1 = some 10 := by
    rw [distance_matrix_empty_eq scenarioAPois 2 1 (by decide) (by decide),
      show scenarioAPois.getD 2 ((0 : ℚ), (0 : ℚ)) = ((10 : ℚ), (10 : ℚ)) from rfl,
      show scenarioAPois.getD 1 ((0 : ℚ), (0 : ℚ)) = ((10 : ℚ), (0 : ℚ)) from rfl, e21]
  refine ⟨?_, ?_, ?_⟩
  · unfold tourCost
    rw [show ([0, 1, 2] : List ℕ).zip ([0, 1, 2] : List ℕ).tail = [(0, 1), (1, 2)] from rfl]
    simp only [List.foldl_cons, List.foldl_nil, d01, d12]
    norm_num
  · unfold tourCost
    rw [show ([0, 2, 1] : List ℕ).zip ([0, 2, 1] : List ℕ).tail = [(0, 2), (2, 1)] from rfl]
    simp only [List.foldl_cons, List.foldl_nil, d02, d21]
    rw [show (0 : ℝ) + Real.sqrt 200 + 10 = 10 + Real.sqrt 200 by ring]
  · intro h
    have h1 : Real.sqrt 200 = 10 := by linarith
    have h2 := Real.sq_sqrt (show (0 : ℝ) ≤ 200 by norm_num)
    rw [h1] at h2
    norm_num at h2
